import Mathlib

/-!
Shallow embedding of the batch generation orchestrator of
`banana_editor_standalone.py`: the slot session manager
(`add_image_to_next_available_slot`, `remove_image_from_slot`,
`get_active_image_paths`), the sequential namer (`get_next_file_number`,
the collision loop of `auto_save_results`), the result reconciler
(`_check_saved_files`) and the batch orchestrator
(`on_batch_worker_complete`, `on_batch_worker_error`,
`on_all_batch_workers_complete`).

Strings are manipulated through their underlying character lists so that
every definition is executable by kernel reduction.  Filesystem reads
(directory listings, modification times) are passed in explicitly as data;
filesystem writes are returned as data.
-/

namespace Banana

/-! ## Character and number parsing utilities (model of Python `int`,
`str.split`, `pathlib.Path.stem` and `str.zfill`/format padding) -/

/-- Value of a decimal digit character, `none` for a non-digit. -/
def digitVal? (c : Char) : Option Nat :=
  if c = '0' then some 0 else if c = '1' then some 1 else if c = '2' then some 2
  else if c = '3' then some 3 else if c = '4' then some 4 else if c = '5' then some 5
  else if c = '6' then some 6 else if c = '7' then some 7 else if c = '8' then some 8
  else if c = '9' then some 9 else none

/-- Decimal digit character for a value below 10 (`'9'` used as an
unreachable fallback). -/
def digitChar (n : Nat) : Char :=
  if n = 0 then '0' else if n = 1 then '1' else if n = 2 then '2'
  else if n = 3 then '3' else if n = 4 then '4' else if n = 5 then '5'
  else if n = 6 then '6' else if n = 7 then '7' else if n = 8 then '8'
  else '9'

/-- Accumulating decimal parser: consumes digit characters, failing on the
first non-digit.  `parseNatAux acc cs` extends the already parsed value
`acc` with the digits `cs`. -/
def parseNatAux (acc : Nat) : List Char → Option Nat
  | [] => some acc
  | c :: cs =>
    match digitVal? c with
    | some d => parseNatAux (10 * acc + d) cs
    | none => none

/-- Model of Python `int(s)` on a character list: optional sign followed by
one or more decimal digits. -/
def pyInt? : List Char → Option Int
  | [] => none
  | c :: cs =>
    if c = '-' then
      if cs = [] then none else (parseNatAux 0 cs).map (fun n => -(n : Int))
    else if c = '+' then
      if cs = [] then none else (parseNatAux 0 cs).map (fun n => (n : Int))
    else (parseNatAux 0 (c :: cs)).map (fun n => (n : Int))

/-- Model of Python `str.split(sep)` for a one-character separator:
splits into the (possibly empty) groups between occurrences of `sep`. -/
def splitChar (sep : Char) : List Char → List (List Char)
  | [] => [[]]
  | c :: cs =>
    match splitChar sep cs with
    | [] => [[c]]
    | g :: gs => if c = sep then [] :: g :: gs else (c :: g) :: gs

/-- Model of `pathlib.Path(name).stem` for a single-component name: the
name with its final suffix removed, where a suffix starts at the last dot
provided that dot is neither the first nor the last character. -/
def stemChars (cs : List Char) : List Char :=
  let parts := splitChar '.' cs
  if 2 ≤ parts.length ∧ parts.getLast? ≠ some [] ∧
      ¬(parts.length = 2 ∧ parts.head? = some []) then
    List.intercalate ['.'] parts.dropLast
  else cs

/-- Decimal digit string of a natural number, structural in an explicit
fuel argument so that it is kernel-reducible. -/
def natDigitsAux : Nat → Nat → List Char
  | 0, _ => []
  | fuel + 1, n =>
    if n < 10 then [digitChar n]
    else natDigitsAux fuel (n / 10) ++ [digitChar (n % 10)]

/-- Decimal digit string of a natural number. -/
def natDigits (n : Nat) : List Char := natDigitsAux (n + 1) n

/-- Left-pad with `'0'` to width `w` (model of the zero padding of
Python `format(n, "03d")`). -/
def zfill (w : Nat) (cs : List Char) : List Char :=
  List.replicate (w - cs.length) '0' ++ cs

/-- Model of Python `format(n, "03d")`: zero-pad to a total width of three
characters, the sign included for negative numbers. -/
def pad3 (n : Int) : List Char :=
  if n < 0 then '-' :: zfill 2 (natDigits n.natAbs) else zfill 3 (natDigits n.toNat)

/-! ## Sequential namer (`get_next_file_number` and the filename scheme of
`auto_save_results`) -/

/-- The output filename scheme of `auto_save_results`:
`banana_<dateBucket>_<seq padded to 3 digits>.png`. -/
def bananaFileName (date : String) (n : Int) : String :=
  "banana_" ++ date ++ "_" ++ String.mk (pad3 n) ++ ".png"

/-- Model of matching a name against the glob pattern
`banana_<date>_*.png` used by `get_next_file_number` and
`_check_saved_files`: the name is the fixed prefix, then an arbitrary
(possibly empty) middle, then the fixed `.png` suffix. -/
def globMatch (date : String) (name : String) : Bool :=
  let pre := ("banana_" ++ date ++ "_").data
  pre.isPrefixOf name.data && List.isSuffixOf ['.', 'p', 'n', 'g'] name.data &&
    decide (pre.length + 4 ≤ name.data.length)

/-- The numeric segment parsed from one matching filename by
`get_next_file_number`: split the stem on underscores, and when there are
at least three segments apply `int` to the third one. -/
def parsedNumber? (name : String) : Option Int :=
  let parts := splitChar '_' (stemChars name.data)
  if 3 ≤ parts.length then pyInt? (parts.getD 2 []) else none

/-- Model of `get_next_file_number(save_dir, date_str)`: over the directory
listing `files`, keep the names matching `banana_<date>_*.png`; return 1 if
none match, otherwise parse the numeric segments and return
`max(numbers) + 1` (1 again if no segment parses). -/
def get_next_file_number (files : List String) (date : String) : Int :=
  let existing := files.filter (fun f => globMatch date f)
  if existing.isEmpty then 1
  else
    match existing.filterMap (fun f => parsedNumber? f) with
    | [] => 1
    | n :: ns => ns.foldl max n + 1

example : bananaFileName "1sep" 5 = "banana_1sep_005.png" := by decide
example : bananaFileName "1sep" 1002 = "banana_1sep_1002.png" := by decide
example : globMatch "1sep" "banana_1sep_005.png" = true := by decide
example : globMatch "1sep" "banana_2sep_005.png" = false := by decide
example : globMatch "1sep" "banana_1sep_.png" = true := by decide
example : parsedNumber? "banana_1sep_005.png" = some 5 := by decide
example : parsedNumber? "banana_1sep_xx.png" = none := by decide
example : parsedNumber? "banana_1sep_007_copy.png" = some 7 := by decide
example :
    get_next_file_number
      ["banana_1sep_001.png", "banana_1sep_002.png", "banana_1sep_003.png",
        "banana_1sep_005.png"] "1sep" = 6 := by decide
example : get_next_file_number [] "1sep" = 1 := by decide
example : get_next_file_number ["banana_1sep_junk.png"] "1sep" = 1 := by decide

/-! ## Auto-save (`auto_save_results`) -/

/-- The per-artifact collision loop of `auto_save_results`:
`while filepath.exists() and counter < 1000` — while the candidate name is
occupied and fewer than 1000 increments were made, increment the sequence
number.  `fs` is the set of occupied names, `n` the current candidate
sequence number, the last argument the remaining allowed increments. -/
def allocLoop (fs : List String) (date : String) (n : Int) : Nat → Int
  | 0 => n
  | fuel + 1 =>
    if bananaFileName date n ∈ fs then allocLoop fs date (n + 1) fuel else n

/-- The save loop of `auto_save_results` over the valid results: artifact
`i` starts from candidate `start + i`, runs the collision loop against the
current filesystem contents `fs`, and the chosen name is written (so it is
occupied for the following artifacts).  Returns the written names in
order. -/
def autoSaveLoop (date : String) (start : Int) (fs : List String) :
    List (List Nat) → Nat → List String
  | [], _ => []
  | _ :: rest, i =>
    let n := allocLoop fs date (start + i) 1000
    let name := bananaFileName date n
    name :: autoSaveLoop date start (name :: fs) rest (i + 1)

/-- Model of `auto_save_results(results)`.  `dir` is the listing of the
save directory at the time `get_next_file_number` takes its snapshot;
`ext` are names that appear on disk between that snapshot and the
per-artifact existence checks (written by other processes — the race the
existence loop guards against; `[]` when the directory is quiescent).
Results are byte blobs, modelled as lists of bytes.  Returns the list of
written file names: empty input saves nothing, blobs of at most 100 bytes
are dropped, and each surviving blob `i` starts from sequence number
`start + i` where `start` is taken from a single directory snapshot. -/
def auto_save_results (dir ext : List String) (date : String)
    (results : List (List Nat)) : List String :=
  if results.isEmpty then []
  else
    let valid := results.filter (fun b => 100 < b.length)
    if valid.isEmpty then []
    else
      let start := get_next_file_number dir date
      autoSaveLoop date start (dir ++ ext) valid 0

set_option maxRecDepth 8000 in
example :
    auto_save_results ["banana_1sep_001.png"] [] "1sep"
      [List.replicate 101 0, List.replicate 7 0, List.replicate 120 1] =
      ["banana_1sep_002.png", "banana_1sep_003.png"] := by decide

/-! ## Result reconciler (`_check_saved_files`) -/

/-- A file observed in the save directory: its name and its modification
time (seconds). -/
structure FileEntry where
  name : String
  mtime : Nat
deriving DecidableEq

/-- Stable insertion into a list sorted by modification time descending:
the new entry goes before the first strictly older entry, after any entry
at least as new (so that, as with Python's stable `sort`, entries with
equal times keep their original relative order). -/
def insertByMtimeDesc (x : FileEntry) : List FileEntry → List FileEntry
  | [] => [x]
  | y :: ys => if x.mtime < y.mtime then y :: insertByMtimeDesc x ys else x :: y :: ys

/-- Stable sort by modification time, newest first — the model of
`saved_files.sort(key=lambda x: x.stat().st_mtime, reverse=True)`. -/
def sortByMtimeDesc : List FileEntry → List FileEntry
  | [] => []
  | x :: xs => insertByMtimeDesc x (sortByMtimeDesc xs)

/-- Model of `_check_saved_files` after the directory choice: filter the
listing to names matching `banana_<date>_*.png`, sort newest first, keep
the first `total_workers` entries, and of those keep the ones modified
less than 300 seconds (5 minutes) before `now`. -/
def check_saved_files (dir : List FileEntry) (date : String)
    (total_workers : Nat) (now : Nat) : List FileEntry :=
  let matched := dir.filter (fun e => globMatch date e.name)
  let sorted := sortByMtimeDesc matched
  (sorted.take total_workers).filter (fun e => now - e.mtime < 300)

example :
    check_saved_files
      [⟨"banana_1sep_001.png", 500⟩, ⟨"banana_1sep_002.png", 900⟩,
        ⟨"other.txt", 950⟩, ⟨"banana_1sep_003.png", 940⟩] "1sep" 2 1000 =
      [⟨"banana_1sep_003.png", 940⟩, ⟨"banana_1sep_002.png", 900⟩] := by decide

/-! ## Slot session manager (`image_paths` and its operations) -/

/-- The initial slot session: `self.image_paths = [None] * 4`. -/
def emptySession : List (Option String) := List.replicate 4 none

/-- The scan loop of `add_image_to_next_available_slot`: try the slot
indices in the given order, fill the first one holding `none`.  Out-of-range
indices are treated as occupied (they cannot occur on a 4-slot session). -/
def addScan (paths : List (Option String)) (image_path : String) :
    List Nat → Bool × List (Option String)
  | [] => (false, paths)
  | i :: rest =>
    match paths.getD i (some "") with
    | none => (true, paths.set i (some image_path))
    | some _ => addScan paths image_path rest

/-- Model of `add_image_to_next_available_slot(image_path)`: scan slots
0, 1, 2, 3 in order, fill the first empty one and return `true`; return
`false` with the session unchanged when all four are occupied. -/
def add_image_to_next_available_slot (paths : List (Option String))
    (image_path : String) : Bool × List (Option String) :=
  addScan paths image_path [0, 1, 2, 3]

/-- Model of `remove_image_from_slot(slot_index)`: clear that slot when the
index is in range, leave every other slot untouched. -/
def remove_image_from_slot (paths : List (Option String)) (slot_index : Nat) :
    List (Option String) :=
  if slot_index < 4 then paths.set slot_index none else paths

/-- Model of `get_active_image_paths()`: the occupied slots' paths, in the
order the slots appear. -/
def get_active_image_paths (paths : List (Option String)) : List String :=
  paths.filterMap id

example :
    add_image_to_next_available_slot [some "a", none, some "c", none] "b" =
      (true, [some "a", some "b", some "c", none]) := by decide
example :
    add_image_to_next_available_slot [some "a", some "b", some "c", some "d"] "e" =
      (false, [some "a", some "b", some "c", some "d"]) := by decide
example : get_active_image_paths [some "a", none, some "c", none] = ["a", "c"] := by
  decide

/-! ## Batch orchestrator (`on_batch_worker_complete`,
`on_batch_worker_error`, `on_all_batch_workers_complete`) -/

/-- One worker's terminal report: either a list of image byte blobs
(`finished` signal) or an error message (`error` signal). -/
inductive Delivery where
  | success (imgs : List (List Nat))
  | failure (msg : String)
deriving DecidableEq

/-- Whether a delivery is a success report. -/
def isSuccess : Delivery → Bool
  | .success _ => true
  | .failure _ => false

/-- The images carried by a delivery (none for a failure). -/
def successImages : Delivery → List (List Nat)
  | .success imgs => imgs
  | .failure _ => []

/-- The environment `on_all_batch_workers_complete` consults when it
finalizes: the currently selected source image, the save-location toggle,
the listings of the two candidate save directories, the date bucket and
the current time. -/
structure Env where
  selected_image_path : Option String
  save_on_original : Bool
  originalDir : List FileEntry
  bananaDir : List FileEntry
  date : String
  now : Nat

/-- Python truthiness of `self.selected_image_path`: a non-`None`,
non-empty string. -/
def selectedTruthy : Option String → Bool
  | none => false
  | some s => !(s == "")

/-- The directory `_check_saved_files` scans: the selected image's folder
when `save_on_original` is set and an image is selected, the `banana`
folder otherwise. -/
def checkDir (env : Env) : List FileEntry :=
  if env.save_on_original && selectedTruthy env.selected_image_path then
    env.originalDir
  else env.bananaDir

/-- The three terminal branches of `on_all_batch_workers_complete`:
display the in-memory API results, display files recovered from disk, or
report that nothing usable was produced. -/
inductive FinalizeResult where
  | apiResults (results : List (List Nat))
  | recovered (files : List String)
  | failed
deriving DecidableEq

/-- The outcome decision of `on_all_batch_workers_complete`: the saved-file
scan runs only when a source image is selected; then the first non-empty
of (in-memory results, recovered files) wins, else total failure. -/
def finalizeDecision (env : Env) (batch_results : List (List Nat))
    (total : Nat) : FinalizeResult :=
  let saved_files :=
    if selectedTruthy env.selected_image_path then
      (check_saved_files (checkDir env) env.date total env.now).map (fun e => e.name)
    else []
  if !batch_results.isEmpty then .apiResults batch_results
  else if !saved_files.isEmpty then .recovered saved_files
  else .failed

/-- One observed run of `on_all_batch_workers_complete`: the counter
values and accumulated results it saw, and the branch it took. -/
structure FinalizeEvent where
  completed : Nat
  total : Nat
  results : List (List Nat)
  decision : FinalizeResult
deriving DecidableEq

/-- The orchestrator state: `self.total_workers`, `self.completed_workers`,
`self.batch_results`, plus the trace of finalize invocations. -/
structure BatchState where
  total_workers : Nat
  completed_workers : Nat
  batch_results : List (List Nat)
  events : List FinalizeEvent
deriving DecidableEq

/-- The batch tracking initialisation of `start_batch_*`:
`batch_results = []`, `completed_workers = 0`, `total_workers = batch_count`. -/
def initBatch (batch_count : Nat) : BatchState :=
  { total_workers := batch_count, completed_workers := 0, batch_results := [],
    events := [] }

/-- Model of `on_all_batch_workers_complete`: record the decision, then
perform the cleanup (`batch_results = []`, `completed_workers = 0`,
`total_workers = 0`). -/
def on_all_batch_workers_complete (env : Env) (st : BatchState) : BatchState :=
  let ev : FinalizeEvent :=
    { completed := st.completed_workers, total := st.total_workers,
      results := st.batch_results,
      decision := finalizeDecision env st.batch_results st.total_workers }
  { total_workers := 0, completed_workers := 0, batch_results := [],
    events := st.events ++ [ev] }

/-- Model of one delivery through `on_batch_worker_complete` (success:
increment the counter and extend `batch_results`) or
`on_batch_worker_error` (failure: increment the counter only); in either
case finalize when `completed_workers >= total_workers`. -/
def deliver (env : Env) (st : BatchState) (d : Delivery) : BatchState :=
  let st1 :=
    match d with
    | .success imgs =>
      { st with completed_workers := st.completed_workers + 1,
                batch_results := st.batch_results ++ imgs }
    | .failure _ => { st with completed_workers := st.completed_workers + 1 }
  if st1.total_workers ≤ st1.completed_workers then
    on_all_batch_workers_complete env st1
  else st1

/-- A whole batch run: the deliveries arrive in the given order. -/
def runBatch (env : Env) (st : BatchState) (ds : List Delivery) : BatchState :=
  ds.foldl (deliver env) st

/-- The specification's terminal status taxonomy, mapped onto the branch
taken by `on_all_batch_workers_complete`: in-memory results with every
worker succeeding is `FullSuccess`, in-memory results with some failure or
a disk recovery is `PartialSuccess`, and the empty outcome is
`TotalFailure`. -/
inductive BatchStatus where
  | fullSuccess
  | partialSuccess
  | totalFailure
deriving DecidableEq

/-- Status assigned to a finalize branch, given whether every worker
reported success. -/
def statusOf (allSucceeded : Bool) : FinalizeResult → BatchStatus
  | .apiResults _ => if allSucceeded then .fullSuccess else .partialSuccess
  | .recovered _ => .partialSuccess
  | .failed => .totalFailure

/-- The finalize decision exactly as the specification words it, for
comparison with the implemented `finalizeDecision`: when the in-memory
results are empty the reconciler is always invoked against the target save
directory, with no condition on a source image being selected. -/
def specFinalizeDecision (env : Env) (batch_results : List (List Nat))
    (total : Nat) : FinalizeResult :=
  let saved_files :=
    (check_saved_files (checkDir env) env.date total env.now).map (fun e => e.name)
  if !batch_results.isEmpty then .apiResults batch_results
  else if !saved_files.isEmpty then .recovered saved_files
  else .failed

example :
    (runBatch
      { selected_image_path := none, save_on_original := true, originalDir := [],
        bananaDir := [], date := "1sep", now := 0 }
      (initBatch 2) [.success [[1, 2], [3]], .failure "blocked"]).events =
      [{ completed := 2, total := 2, results := [[1, 2], [3]],
         decision := .apiResults [[1, 2], [3]] }] := by decide

/-! ## Theorems -/

/-- C7: `add_image_to_next_available_slot` scans slots 0 through 3 in
order and fills the first empty slot, returning `true`; on a full session
it returns `false` and leaves every slot unchanged; and after
`remove_image_from_slot 1` on a full session a subsequent add places the
new path at index 1, the lowest free index. -/
theorem C7_slot_add_contract (a b c d : Option String) (p : String) :
    ((∀ i < 4, [a, b, c, d].getD i none ≠ none) →
      add_image_to_next_available_slot [a, b, c, d] p = (false, [a, b, c, d])) ∧
    (∀ j < 4, [a, b, c, d].getD j none = none →
      (∀ i < j, [a, b, c, d].getD i none ≠ none) →
      add_image_to_next_available_slot [a, b, c, d] p =
        (true, [a, b, c, d].set j (some p))) ∧
    ((∀ i < 4, [a, b, c, d].getD i none ≠ none) →
      add_image_to_next_available_slot (remove_image_from_slot [a, b, c, d] 1) p =
        (true, [a, some p, c, d])) := by
  refine ⟨fun hocc => ?_, fun j hj hfree hocc => ?_, fun hocc => ?_⟩
  · obtain ⟨a', rfl⟩ := Option.ne_none_iff_exists'.mp (hocc 0 (by omega))
    obtain ⟨b', rfl⟩ := Option.ne_none_iff_exists'.mp (hocc 1 (by omega))
    obtain ⟨c', rfl⟩ := Option.ne_none_iff_exists'.mp (hocc 2 (by omega))
    obtain ⟨d', rfl⟩ := Option.ne_none_iff_exists'.mp (hocc 3 (by omega))
    rfl
  · interval_cases j
    · simp only [List.getD_cons_zero] at hfree
      subst hfree
      rfl
    · obtain ⟨a', rfl⟩ := Option.ne_none_iff_exists'.mp (hocc 0 (by omega))
      simp only [List.getD_cons_succ, List.getD_cons_zero] at hfree
      subst hfree
      rfl
    · obtain ⟨a', rfl⟩ := Option.ne_none_iff_exists'.mp (hocc 0 (by omega))
      obtain ⟨b', rfl⟩ := Option.ne_none_iff_exists'.mp (hocc 1 (by omega))
      simp only [List.getD_cons_succ, List.getD_cons_zero] at hfree
      subst hfree
      rfl
    · obtain ⟨a', rfl⟩ := Option.ne_none_iff_exists'.mp (hocc 0 (by omega))
      obtain ⟨b', rfl⟩ := Option.ne_none_iff_exists'.mp (hocc 1 (by omega))
      obtain ⟨c', rfl⟩ := Option.ne_none_iff_exists'.mp (hocc 2 (by omega))
      simp only [List.getD_cons_succ, List.getD_cons_zero] at hfree
      subst hfree
      rfl
  · obtain ⟨a', rfl⟩ := Option.ne_none_iff_exists'.mp (hocc 0 (by omega))
    obtain ⟨b', rfl⟩ := Option.ne_none_iff_exists'.mp (hocc 1 (by omega))
    obtain ⟨c', rfl⟩ := Option.ne_none_iff_exists'.mp (hocc 2 (by omega))
    obtain ⟨d', rfl⟩ := Option.ne_none_iff_exists'.mp (hocc 3 (by omega))
    rfl

/-- Witness for C7 at a concrete full session. -/
theorem C7_slot_add_contract_witness :
    add_image_to_next_available_slot
        [some "w", some "x", some "y", some "z"] "q" =
      (false, [some "w", some "x", some "y", some "z"]) ∧
    add_image_to_next_available_slot
        (remove_image_from_slot [some "w", some "x", some "y", some "z"] 1) "q" =
      (true, [some "w", some "q", some "y", some "z"]) := by
  have h := C7_slot_add_contract (some "w") (some "x") (some "y") (some "z") "q"
  exact ⟨h.1 (by decide), h.2.2 (by decide)⟩

/-- C8: `get_active_image_paths` returns exactly the occupied slots' paths
in ascending slot-index order, independent of the order in which the slots
were filled; in particular a session holding a path at index 2 filled
before a path at index 0 still lists the index-0 path first. -/
theorem C8_active_paths_index_order (s : List (Option String)) :
    get_active_image_paths s =
      (List.range s.length).filterMap (fun i => s.getD i none) ∧
    get_active_image_paths
        ((add_image_to_next_available_slot
          (remove_image_from_slot
            (remove_image_from_slot
              ((add_image_to_next_available_slot
                ((add_image_to_next_available_slot
                  ((add_image_to_next_available_slot emptySession "x0").2)
                  "x1").2)
                "c").2)
              0)
            1)
          "a").2) = ["a", "c"] := by
  constructor
  · induction s with
    | nil => rfl
    | cons x xs ih =>
      cases x with
      | none =>
        simpa [get_active_image_paths, List.range_succ_eq_map,
          List.filterMap_map, Function.comp_def, List.getElem?_cons_succ] using ih
      | some v =>
        simpa [get_active_image_paths, List.range_succ_eq_map,
          List.filterMap_map, Function.comp_def, List.getElem?_cons_succ] using ih
  · decide

/-- While fewer deliveries than `total_workers` have arrived, a run only
increments the counter and accumulates the success payloads; finalize does
not fire. -/
theorem runBatch_collecting (env : Env) (ds : List Delivery) :
    ∀ st : BatchState, st.completed_workers + ds.length < st.total_workers →
      runBatch env st ds =
        { st with
            completed_workers := st.completed_workers + ds.length,
            batch_results := st.batch_results ++ ds.flatMap successImages } := by
  induction ds with
  | nil => intro st _; simp [runBatch]
  | cons d ds ih =>
    intro st h
    have hcond : ¬(st.total_workers ≤ st.completed_workers + 1) := by
      simp only [List.length_cons] at h; omega
    cases d with
    | success imgs =>
      have hstep : deliver env st (.success imgs) =
          { st with completed_workers := st.completed_workers + 1,
                    batch_results := st.batch_results ++ imgs } := by
        simp [deliver, hcond]
      have := ih { st with completed_workers := st.completed_workers + 1,
                           batch_results := st.batch_results ++ imgs }
        (by simp only [List.length_cons] at h; simpa using by omega)
      simp only [runBatch, List.foldl_cons] at *
      rw [hstep, this]
      simp [successImages, List.flatMap_cons, List.append_assoc]
      omega
    | failure msg =>
      have hstep : deliver env st (.failure msg) =
          { st with completed_workers := st.completed_workers + 1 } := by
        simp [deliver, hcond]
      have := ih { st with completed_workers := st.completed_workers + 1 }
        (by simp only [List.length_cons] at h; simpa using by omega)
      simp only [runBatch, List.foldl_cons] at *
      rw [hstep, this]
      simp [successImages, List.flatMap_cons]
      omega

/-- The delivery that makes the completed count reach the total triggers
`on_all_batch_workers_complete`: it records one finalize event, whose
observed counter equals the total and whose observed results are the
concatenation of all success payloads, and then resets the batch state. -/
theorem runBatch_last (env : Env) (ds : List Delivery) (d : Delivery)
    (st : BatchState)
    (h : st.completed_workers + ds.length + 1 = st.total_workers) :
    runBatch env st (ds ++ [d]) =
      { total_workers := 0, completed_workers := 0, batch_results := [],
        events := st.events ++
          [{ completed := st.total_workers, total := st.total_workers,
             results := st.batch_results ++ (ds ++ [d]).flatMap successImages,
             decision := finalizeDecision env
               (st.batch_results ++ (ds ++ [d]).flatMap successImages)
               st.total_workers }] } := by
  have hmid := runBatch_collecting env ds st (by omega)
  have hfold : runBatch env st (ds ++ [d]) = deliver env (runBatch env st ds) d := by
    simp [runBatch, List.foldl_append]
  rw [hfold, hmid]
  cases d with
  | success imgs =>
    have hcond : st.total_workers ≤ st.completed_workers + ds.length + 1 := by omega
    simp only [deliver, on_all_batch_workers_complete, hcond, if_pos]
    simp [List.flatMap_append, List.flatMap_cons, successImages, h, List.append_assoc]
  | failure msg =>
    have hcond : st.total_workers ≤ st.completed_workers + ds.length + 1 := by omega
    simp only [deliver, on_all_batch_workers_complete, hcond, if_pos]
    simp [List.flatMap_append, List.flatMap_cons, successImages, h]

/-- C2: for every worker count N in 1..4 and every sequence of exactly N
completion signals, in any order and any mix of success and failure, the
run records exactly one finalize event, with the completed counter equal
to N when it fires; and no finalize event exists after any proper prefix
of the deliveries, so the event is triggered by the delivery that makes
the completed count reach the total. -/
theorem C2_finalize_exactly_once (env : Env) (N : Nat) (ds : List Delivery)
    (h1 : 1 ≤ N) (h4 : N ≤ 4) (hlen : ds.length = N) :
    (runBatch env (initBatch N) ds).events.map
        (fun ev => (ev.completed, ev.total)) = [(N, N)] ∧
    ∀ k < N, (runBatch env (initBatch N) (ds.take k)).events = [] := by
  constructor
  · rcases List.eq_nil_or_concat ds with rfl | ⟨ds', d, rfl⟩
    · simp at hlen; omega
    · simp only [List.concat_eq_append] at hlen ⊢
      have hlen' : ds'.length + 1 = N := by simpa using hlen
      rw [runBatch_last env ds' d (initBatch N) (by simp [initBatch]; omega)]
      simp [initBatch]
  · intro k hk
    have htk : (ds.take k).length = k := by
      rw [List.length_take]; omega
    rw [runBatch_collecting env (ds.take k) (initBatch N) (by simp [initBatch, htk]; omega)]
    simp [initBatch]

/-- Witness for C2 with N = 2, one success and one failure. -/
theorem C2_finalize_exactly_once_witness :
    (runBatch
        { selected_image_path := none, save_on_original := true,
          originalDir := [], bananaDir := [], date := "1sep", now := 0 }
        (initBatch 2) [.success [[0]], .failure "e"]).events.map
        (fun ev => (ev.completed, ev.total)) = [(2, 2)] ∧
    (runBatch
        { selected_image_path := none, save_on_original := true,
          originalDir := [], bananaDir := [], date := "1sep", now := 0 }
        (initBatch 2) ([Delivery.success [[0]], Delivery.failure "e"].take 1)).events
      = [] := by
  refine ⟨(C2_finalize_exactly_once _ 2 [.success [[0]], .failure "e"]
    (by decide) (by decide) (by decide)).1, ?_⟩
  exact (C2_finalize_exactly_once _ 2 [.success [[0]], .failure "e"]
    (by decide) (by decide) (by decide)).2 1 (by decide)

/-- The sum of the successful deliveries' image counts equals the length
of the accumulated result list. -/
theorem isSuccess_success (imgs : List (List Nat)) :
    isSuccess (.success imgs) = true := rfl

theorem isSuccess_failure (msg : String) : isSuccess (.failure msg) = false := rfl

theorem successImages_success (imgs : List (List Nat)) :
    successImages (.success imgs) = imgs := rfl

theorem successImages_failure (msg : String) :
    successImages (.failure msg) = [] := rfl

theorem sum_successImages (ds : List Delivery) :
    ((ds.filter (fun d => isSuccess d)).map
      (fun d => (successImages d).length)).sum =
      (ds.flatMap successImages).length := by
  induction ds with
  | nil => rfl
  | cons d ds ih =>
    cases d with
    | success imgs =>
      simp only [List.filter_cons, isSuccess_success, if_true, List.map_cons,
        List.sum_cons, List.flatMap_cons, successImages_success,
        List.length_append, ih]
    | failure msg =>
      simp only [List.filter_cons, isSuccess_failure, Bool.false_eq_true,
        if_false, List.flatMap_cons, successImages_failure, List.nil_append, ih]

/-- C6: when at least one worker succeeds in-memory, the result list
observed by finalize has length equal to the sum of the successful
workers' image counts, and running the same deliveries in any other order
yields a permutation (the same multiset) of those results. -/
theorem C6_result_accumulation (env : Env) (N : Nat) (ds ds' : List Delivery)
    (hlen : ds.length = N) (h1 : 1 ≤ N) (hperm : ds.Perm ds')
    (hk : ds.any (fun d => isSuccess d) = true) :
    ∃ ev ev', (runBatch env (initBatch N) ds).events = [ev] ∧
      (runBatch env (initBatch N) ds').events = [ev'] ∧
      ev.results.length =
        ((ds.filter (fun d => isSuccess d)).map
          (fun d => (successImages d).length)).sum ∧
      ev.results.Perm ev'.results := by
  have hlen2 : ds'.length = N := by rw [← hperm.length_eq]; exact hlen
  rcases List.eq_nil_or_concat ds with rfl | ⟨l, d, rfl⟩
  · simp at hlen; omega
  rcases List.eq_nil_or_concat ds' with rfl | ⟨l', d', rfl⟩
  · simp at hlen2; omega
  simp only [List.concat_eq_append] at hlen hlen2 hperm hk ⊢
  rw [runBatch_last env l d (initBatch N) (by simp [initBatch]; simp at hlen; omega)]
  rw [runBatch_last env l' d' (initBatch N) (by simp [initBatch]; simp at hlen2; omega)]
  refine ⟨{ completed := N, total := N,
            results := (l ++ [d]).flatMap successImages,
            decision := finalizeDecision env ((l ++ [d]).flatMap successImages) N },
          { completed := N, total := N,
            results := (l' ++ [d']).flatMap successImages,
            decision := finalizeDecision env ((l' ++ [d']).flatMap successImages) N },
          ?_, ?_, ?_, ?_⟩
  · simp [initBatch]
  · simp [initBatch]
  · rw [sum_successImages]
  · exact hperm.flatMap_right successImages

/-- C9: a batch that finishes with an empty accumulated result list and no
selected source image is classified as the failed branch without
consulting the save directory: the conclusion holds for every environment,
in particular whatever recent matching artifacts the directories
contain. -/
theorem C9_no_reconciliation_without_selection (env : Env) (N : Nat)
    (ds : List Delivery) (hlen : ds.length = N) (h1 : 1 ≤ N)
    (hsel : selectedTruthy env.selected_image_path = false)
    (hacc : ds.flatMap successImages = []) :
    (runBatch env (initBatch N) ds).events.map (fun ev => ev.decision) =
      [.failed] := by
  rcases List.eq_nil_or_concat ds with rfl | ⟨l, d, rfl⟩
  · simp at hlen; omega
  simp only [List.concat_eq_append] at hlen hacc ⊢
  rw [runBatch_last env l d (initBatch N) (by simp [initBatch]; simp at hlen; omega)]
  simp [initBatch, hacc, finalizeDecision, hsel]

/-- Witness for C9: two failed workers, no selected image, while the
banana folder does hold a fresh matching artifact. -/
theorem C9_no_reconciliation_without_selection_witness :
    (runBatch
        { selected_image_path := none, save_on_original := false,
          originalDir := [], bananaDir := [⟨"banana_1sep_003.png", 995⟩],
          date := "1sep", now := 1000 }
        (initBatch 2) [.failure "a", .failure "b"]).events.map
        (fun ev => ev.decision) = [.failed] :=
  C9_no_reconciliation_without_selection _ 2 [.failure "a", .failure "b"]
    (by decide) (by decide) (by decide) (by decide)

/-- The first finalize branch: a non-empty accumulated result list is
displayed as-is. -/
theorem finalizeDecision_api (env : Env) (acc : List (List Nat)) (total : Nat)
    (h : acc ≠ []) : finalizeDecision env acc total = .apiResults acc := by
  unfold finalizeDecision
  have hb : acc.isEmpty = false := by simpa [List.isEmpty_iff] using h
  simp [hb]

/-- The second finalize branch: empty accumulated results, a selected
source image, and a non-empty reconciler answer yield the recovered
files. -/
theorem finalizeDecision_recovered (env : Env) (total : Nat)
    (hsel : selectedTruthy env.selected_image_path = true)
    (hrec : check_saved_files (checkDir env) env.date total env.now ≠ []) :
    finalizeDecision env [] total =
      .recovered ((check_saved_files (checkDir env) env.date total env.now).map
        (fun e => e.name)) := by
  unfold finalizeDecision
  have hb : ((check_saved_files (checkDir env) env.date total env.now).map
      (fun e => e.name)).isEmpty = false := by
    simpa [List.isEmpty_iff] using hrec
  simp [hsel, hb]

/-- The third finalize branch: empty accumulated results and either no
selected source image or an empty reconciler answer yield failure. -/
theorem finalizeDecision_failed (env : Env) (total : Nat)
    (hdry : selectedTruthy env.selected_image_path = false ∨
      check_saved_files (checkDir env) env.date total env.now = []) :
    finalizeDecision env [] total = .failed := by
  unfold finalizeDecision
  rcases hdry with hsel | hrec
  · simp [hsel]
  · cases hs : selectedTruthy env.selected_image_path
    · simp [hs]
    · simp [hs, hrec]

/-- C1 (amended): the finalize outcome is decided in strict order — a
non-empty accumulated result list is the result set (`FullSuccess` when
every worker succeeded, else `PartialSuccess`); otherwise, when a source
image is selected and the reconciler returns at least one artifact, those
artifacts are the result set with `PartialSuccess`; otherwise the outcome
is `TotalFailure` with an empty result set.  The reconciler is consulted
only when a source image is selected. -/
theorem C1_finalize_outcome (env : Env) (N : Nat) (ds : List Delivery)
    (hlen : ds.length = N) (h1 : 1 ≤ N) :
    ∃ ev, (runBatch env (initBatch N) ds).events = [ev] ∧
      ev.results = ds.flatMap successImages ∧
      (ds.flatMap successImages ≠ [] →
        ev.decision = .apiResults (ds.flatMap successImages) ∧
        (ds.all (fun d => isSuccess d) = true →
          statusOf (ds.all (fun d => isSuccess d)) ev.decision = .fullSuccess) ∧
        (ds.all (fun d => isSuccess d) = false →
          statusOf (ds.all (fun d => isSuccess d)) ev.decision = .partialSuccess)) ∧
      (ds.flatMap successImages = [] →
        selectedTruthy env.selected_image_path = true →
        check_saved_files (checkDir env) env.date N env.now ≠ [] →
        ev.decision = .recovered
          ((check_saved_files (checkDir env) env.date N env.now).map
            (fun e => e.name)) ∧
        statusOf (ds.all (fun d => isSuccess d)) ev.decision = .partialSuccess) ∧
      (ds.flatMap successImages = [] →
        (selectedTruthy env.selected_image_path = false ∨
          check_saved_files (checkDir env) env.date N env.now = []) →
        ev.decision = .failed ∧
        statusOf (ds.all (fun d => isSuccess d)) ev.decision = .totalFailure) := by
  rcases List.eq_nil_or_concat ds with rfl | ⟨l, d, rfl⟩
  · simp at hlen; omega
  simp only [List.concat_eq_append] at hlen ⊢
  rw [runBatch_last env l d (initBatch N) (by simp [initBatch]; simp at hlen; omega)]
  refine ⟨{ completed := N, total := N,
            results := (l ++ [d]).flatMap successImages,
            decision := finalizeDecision env ((l ++ [d]).flatMap successImages) N },
          by simp [initBatch], rfl, ?_, ?_, ?_⟩
  · intro hne
    have hdec := finalizeDecision_api env ((l ++ [d]).flatMap successImages) N hne
    refine ⟨hdec, fun hall => ?_, fun hall => ?_⟩
    · show statusOf ((l ++ [d]).all (fun d => isSuccess d))
        (finalizeDecision env ((l ++ [d]).flatMap successImages) N) =
          BatchStatus.fullSuccess
      rw [hdec]
      simp [statusOf, hall]
    · show statusOf ((l ++ [d]).all (fun d => isSuccess d))
        (finalizeDecision env ((l ++ [d]).flatMap successImages) N) =
          BatchStatus.partialSuccess
      rw [hdec]
      simp [statusOf, hall]
  · intro hacc hsel hrec
    have hdec : finalizeDecision env ((l ++ [d]).flatMap successImages) N =
        .recovered ((check_saved_files (checkDir env) env.date N env.now).map
          (fun e => e.name)) := by
      rw [hacc]
      exact finalizeDecision_recovered env N hsel hrec
    refine ⟨hdec, ?_⟩
    show statusOf ((l ++ [d]).all (fun d => isSuccess d))
      (finalizeDecision env ((l ++ [d]).flatMap successImages) N) =
        BatchStatus.partialSuccess
    rw [hdec]
    simp [statusOf]
  · intro hacc hdry
    have hdec : finalizeDecision env ((l ++ [d]).flatMap successImages) N =
        .failed := by
      rw [hacc]
      exact finalizeDecision_failed env N hdry
    refine ⟨hdec, ?_⟩
    show statusOf ((l ++ [d]).all (fun d => isSuccess d))
      (finalizeDecision env ((l ++ [d]).flatMap successImages) N) =
        BatchStatus.totalFailure
    rw [hdec]
    simp [statusOf]

/-- Witness for C1 (amended): all workers fail but the scanned directory
holds one fresh matching artifact, with a source image selected — the
recovered branch fires. -/
theorem C1_finalize_outcome_witness :
    (runBatch
        { selected_image_path := some "src.png", save_on_original := false,
          originalDir := [], bananaDir := [⟨"banana_1sep_003.png", 995⟩],
          date := "1sep", now := 1000 }
        (initBatch 1) [.failure "e"]).events.map (fun ev => ev.decision) =
      [.recovered ["banana_1sep_003.png"]] := by
  obtain ⟨ev, h1, h2, h3, h4, h5⟩ :=
    C1_finalize_outcome
      { selected_image_path := some "src.png", save_on_original := false,
        originalDir := [], bananaDir := [⟨"banana_1sep_003.png", 995⟩],
        date := "1sep", now := 1000 }
      1 [.failure "e"] (by decide) (by decide)
  rw [h1]
  have := (h4 (by decide) (by decide) (by decide)).1
  simp only [List.map_cons, List.map_nil]
  rw [this]
  decide

/-- Counterexample to C1 as stated: with no source image selected, all
workers failing, and a fresh matching artifact on disk, the code takes the
failed branch, while the specification's unconditional decision rule
prescribes the recovered branch. -/
theorem C1_finalize_outcome_counterexample :
    (runBatch
        { selected_image_path := none, save_on_original := false,
          originalDir := [], bananaDir := [⟨"banana_1sep_003.png", 995⟩],
          date := "1sep", now := 1000 }
        (initBatch 1) [.failure "e"]).events.map (fun ev => ev.decision) =
      [.failed] ∧
    specFinalizeDecision
        { selected_image_path := none, save_on_original := false,
          originalDir := [], bananaDir := [⟨"banana_1sep_003.png", 995⟩],
          date := "1sep", now := 1000 } [] 1 =
      .recovered ["banana_1sep_003.png"] ∧
    FinalizeResult.failed ≠ .recovered ["banana_1sep_003.png"] := by decide

/-- Witness for C6: one success carrying two images and one failure, in
both delivery orders, accumulate two results. -/
theorem C6_result_accumulation_witness :
    (runBatch
        { selected_image_path := none, save_on_original := true,
          originalDir := [], bananaDir := [], date := "1sep", now := 0 }
        (initBatch 2) [.success [[1, 2], [3]], .failure "b"]).events.map
        (fun ev => ev.results.length) = [2] ∧
    (runBatch
        { selected_image_path := none, save_on_original := true,
          originalDir := [], bananaDir := [], date := "1sep", now := 0 }
        (initBatch 2) [.failure "b", .success [[1, 2], [3]]]).events.map
        (fun ev => ev.results.length) = [2] := by
  obtain ⟨ev, ev', h1, h2, h3, h4⟩ :=
    C6_result_accumulation
      { selected_image_path := none, save_on_original := true,
        originalDir := [], bananaDir := [], date := "1sep", now := 0 }
      2 [.success [[1, 2], [3]], .failure "b"]
      [.failure "b", .success [[1, 2], [3]]]
      (by decide) (by decide) (by decide) (by decide)
  constructor
  · rw [h1]
    simp only [List.map_cons, List.map_nil, h3]
    decide
  · rw [h2]
    simp only [List.map_cons, List.map_nil, ← h4.length_eq, h3]
    decide

/-- Insertion keeps the same elements, adding the new one. -/
theorem insertByMtimeDesc_perm (x : FileEntry) (l : List FileEntry) :
    (insertByMtimeDesc x l).Perm (x :: l) := by
  induction l with
  | nil => exact List.Perm.refl _
  | cons y ys ih =>
    simp only [insertByMtimeDesc]
    by_cases h : x.mtime < y.mtime
    · rw [if_pos h]
      exact (ih.cons y).trans (List.Perm.swap x y ys)
    · rw [if_neg h]

/-- The stable sort is a permutation of its input. -/
theorem sortByMtimeDesc_perm (l : List FileEntry) :
    (sortByMtimeDesc l).Perm l := by
  induction l with
  | nil => exact List.Perm.refl _
  | cons x xs ih => exact (insertByMtimeDesc_perm x (sortByMtimeDesc xs)).trans (ih.cons x)

/-- Inserting into a list sorted newest-first keeps it sorted. -/
theorem insertByMtimeDesc_pairwise (x : FileEntry) (l : List FileEntry)
    (h : List.Pairwise (fun a b => b.mtime ≤ a.mtime) l) :
    List.Pairwise (fun a b => b.mtime ≤ a.mtime) (insertByMtimeDesc x l) := by
  induction l with
  | nil => simp [insertByMtimeDesc]
  | cons y ys ih =>
    rcases List.pairwise_cons.mp h with ⟨hy, hys⟩
    simp only [insertByMtimeDesc]
    by_cases hxy : x.mtime < y.mtime
    · rw [if_pos hxy]
      refine List.pairwise_cons.mpr ⟨?_, ih hys⟩
      intro z hz
      rcases List.mem_cons.mp ((insertByMtimeDesc_perm x ys).mem_iff.mp hz) with rfl | hzys
      · omega
      · exact hy z hzys
    · rw [if_neg hxy]
      refine List.pairwise_cons.mpr ⟨?_, h⟩
      intro z hz
      rcases List.mem_cons.mp hz with rfl | hzys
      · omega
      · exact le_trans (hy z hzys) (by omega)

/-- The stable sort is sorted newest-first. -/
theorem sortByMtimeDesc_pairwise (l : List FileEntry) :
    List.Pairwise (fun a b => b.mtime ≤ a.mtime) (sortByMtimeDesc l) := by
  induction l with
  | nil => simp [sortByMtimeDesc]
  | cons x xs ih => exact insertByMtimeDesc_pairwise x (sortByMtimeDesc xs) ih

/-- On a list sorted by a relation along which the predicate is downward
closed, filtering coincides with taking the initial run. -/
theorem filter_eq_takeWhile_of_pairwise {α : Type} (R : α → α → Prop)
    (p : α → Bool) (l : List α) (hl : List.Pairwise R l)
    (hcl : ∀ a b, R a b → p b = true → p a = true) :
    l.filter p = l.takeWhile p := by
  induction l with
  | nil => rfl
  | cons x xs ih =>
    rcases List.pairwise_cons.mp hl with ⟨hx, hxs⟩
    cases hp : p x with
    | true =>
      rw [List.filter_cons_of_pos hp, List.takeWhile_cons_of_pos hp, ih hxs]
    | false =>
      rw [List.filter_cons_of_neg (by simp [hp]), List.takeWhile_cons_of_neg (by simp [hp])]
      refine List.filter_eq_nil_iff.mpr ?_
      intro y hy
      intro hpy
      have : p x = true := hcl x y (hx y hy) hpy
      simp [hp] at this

/-- Taking a prefix commutes with the recency filter on a sorted list:
in `check_saved_files`, truncating to `total_workers` and then filtering
by age returns the first `min` of the recent entries. -/
theorem take_filter_of_sorted {α : Type} (R : α → α → Prop) (p : α → Bool)
    (s : List α) (k : Nat) (hs : List.Pairwise R s)
    (hcl : ∀ a b, R a b → p b = true → p a = true) :
    (s.take k).filter p = (s.filter p).take k := by
  have hft : s.filter p = s.takeWhile p := filter_eq_takeWhile_of_pairwise R p s hs hcl
  have hsplit : s = s.takeWhile p ++ s.dropWhile p :=
    (List.takeWhile_append_dropWhile p s).symm
  have hTall : ∀ a ∈ s.takeWhile p, p a = true := fun a ha => List.mem_takeWhile_imp ha
  have hDfail : ∀ a ∈ s.dropWhile p, ¬ p a = true := by
    have h1 : s.filter p =
        (s.takeWhile p).filter p ++ (s.dropWhile p).filter p := by
      conv_lhs => rw [hsplit]
      exact List.filter_append _ _
    have h2 : (s.takeWhile p).filter p = s.takeWhile p :=
      List.filter_eq_self.mpr hTall
    have h3 : (s.dropWhile p).filter p = [] := by
      have hlen := congrArg List.length (hft ▸ h1)
      rw [h2, List.length_append] at hlen
      have : ((s.dropWhile p).filter p).length = 0 := by omega
      exact List.length_eq_zero.mp this
    intro a ha hpa
    have : a ∈ (s.dropWhile p).filter p := List.mem_filter.mpr ⟨ha, hpa⟩
    simp [h3] at this
  conv_lhs => rw [hsplit]
  rw [List.take_append_eq_append_take, List.filter_append]
  rw [List.filter_eq_self.mpr (fun a ha => hTall a (List.take_subset _ _ ha))]
  rw [List.filter_eq_nil_iff.mpr (fun a ha => hDfail a (List.take_subset _ _ ha))]
  rw [hft, List.append_nil]

/-- C3: for every directory snapshot, `check_saved_files` returns exactly
`min(totalWorkers, matchingRecentCount)` entries, each a pattern-matching
entry modified less than `maxAge` (300 seconds) before now, ordered newest
first; entries older than `maxAge` are never returned. -/
theorem C3_reconciler_min_recent (dir : List FileEntry) (date : String)
    (k now : Nat) :
    (check_saved_files dir date k now).length =
      min k ((dir.filter (fun e => globMatch date e.name)).filter
        (fun e => now - e.mtime < 300)).length ∧
    List.Pairwise (fun a b => b.mtime ≤ a.mtime)
      (check_saved_files dir date k now) ∧
    (∀ e ∈ check_saved_files dir date k now, now - e.mtime < 300) ∧
    (∀ e ∈ check_saved_files dir date k now,
      e ∈ dir.filter (fun e => globMatch date e.name)) := by
  have hcl : ∀ a b : FileEntry, b.mtime ≤ a.mtime →
      decide (now - b.mtime < 300) = true → decide (now - a.mtime < 300) = true := by
    intro a b hab hb
    simp only [decide_eq_true_eq] at *
    omega
  have hsorted := sortByMtimeDesc_pairwise (dir.filter (fun e => globMatch date e.name))
  have hperm := sortByMtimeDesc_perm (dir.filter (fun e => globMatch date e.name))
  have hcomm := take_filter_of_sorted (fun a b => b.mtime ≤ a.mtime)
    (fun e => decide (now - e.mtime < 300))
    (sortByMtimeDesc (dir.filter (fun e => globMatch date e.name))) k hsorted hcl
  have hr : check_saved_files dir date k now =
      ((sortByMtimeDesc (dir.filter (fun e => globMatch date e.name))).filter
        (fun e => decide (now - e.mtime < 300))).take k := by
    rw [check_saved_files, ← hcomm]
  refine ⟨?_, ?_, ?_, ?_⟩
  · rw [hr, List.length_take]
    congr 1
    exact (hperm.filter _).length_eq
  · rw [hr]
    exact ((hsorted.filter _).sublist (List.take_sublist _ _))
  · intro e he
    rw [hr] at he
    have := List.of_mem_filter (List.take_subset _ _ he)
    simpa using this
  · intro e he
    rw [hr] at he
    have := List.mem_of_mem_filter (List.take_subset _ _ he)
    exact hperm.mem_iff.mp this

/-- Witness for C3 on a concrete directory with two recent and one stale
matching entries, plus one non-matching entry: exactly two files are
returned. -/
theorem C3_reconciler_min_recent_witness :
    (check_saved_files
        [⟨"banana_1sep_001.png", 500⟩, ⟨"banana_1sep_002.png", 900⟩,
          ⟨"other.txt", 950⟩, ⟨"banana_1sep_003.png", 940⟩] "1sep" 2 1000).length =
      2 := by
  have h := C3_reconciler_min_recent
    [⟨"banana_1sep_001.png", 500⟩, ⟨"banana_1sep_002.png", 900⟩,
      ⟨"other.txt", 950⟩, ⟨"banana_1sep_003.png", 940⟩] "1sep" 2 1000
  rw [h.1]
  decide

/-- The seed of a left fold by `max` bounds the result from below. -/
theorem le_foldl_max (l : List Int) (a : Int) : a ≤ l.foldl max a := by
  induction l generalizing a with
  | nil => exact le_refl a
  | cons x xs ih => exact le_trans (le_max_left a x) (ih (max a x))

/-- Every member of the list bounds a left fold by `max` from below. -/
theorem mem_le_foldl_max (l : List Int) (a x : Int) (hx : x ∈ l) :
    x ≤ l.foldl max a := by
  induction l generalizing a with
  | nil => cases hx
  | cons y ys ih =>
    rcases List.mem_cons.mp hx with rfl | hmem
    · exact le_trans (le_max_right a x) (le_foldl_max ys (max a x))
    · exact ih (max a y) hmem

/-- A left fold by `max` is the seed or a member of the list. -/
theorem foldl_max_mem (l : List Int) (a : Int) :
    l.foldl max a = a ∨ l.foldl max a ∈ l := by
  induction l generalizing a with
  | nil => exact Or.inl rfl
  | cons x xs ih =>
    rcases ih (max a x) with heq | hmem
    · rcases max_choice a x with hax | hax
      · exact Or.inl (by rw [List.foldl_cons, heq, hax])
      · exact Or.inr (by rw [List.foldl_cons, heq, hax]; exact List.mem_cons_self x xs)
    · exact Or.inr (List.mem_cons_of_mem x hmem)

/-- When at least one matching file parses, `get_next_file_number` is the
fold-maximum of the parsed numbers plus one. -/
theorem get_next_file_number_eq (files : List String) (date : String)
    (n : Int) (ns : List Int)
    (h : (files.filter (fun f => globMatch date f)).filterMap
      (fun f => parsedNumber? f) = n :: ns) :
    get_next_file_number files date = ns.foldl max n + 1 := by
  have hne : (files.filter (fun f => globMatch date f)).isEmpty = false := by
    cases hf : files.filter (fun f => globMatch date f) with
    | nil => rw [hf] at h; simp at h
    | cons g gs => simp
  unfold get_next_file_number
  simp only [hne, Bool.false_eq_true, if_false, h]

/-- C4: `get_next_file_number` returns `max(parsedNumbers) + 1` over the
numeric segments of the files matching the pattern — the returned value
minus one is itself a parsed number and an upper bound of all of them —
and returns 1 when no file matches; a directory holding sequence numbers
1, 2, 3, 5 yields 6 (the gap is not filled). -/
theorem C4_next_sequence (files : List String) (date : String) :
    (get_next_file_number [] date = 1) ∧
    (files.filter (fun f => globMatch date f) = [] →
      get_next_file_number files date = 1) ∧
    (∀ m ∈ (files.filter (fun f => globMatch date f)).filterMap
        (fun f => parsedNumber? f),
      m ≤ get_next_file_number files date - 1) ∧
    ((files.filter (fun f => globMatch date f)).filterMap
        (fun f => parsedNumber? f) ≠ [] →
      get_next_file_number files date - 1 ∈
        (files.filter (fun f => globMatch date f)).filterMap
          (fun f => parsedNumber? f)) ∧
    get_next_file_number
      ["banana_1sep_001.png", "banana_1sep_002.png", "banana_1sep_003.png",
        "banana_1sep_005.png"] "1sep" = 6 := by
  refine ⟨by rfl, fun h => ?_, fun m hm => ?_, fun h => ?_, by decide⟩
  · unfold get_next_file_number
    simp [h]
  · cases hnum : (files.filter (fun f => globMatch date f)).filterMap
        (fun f => parsedNumber? f) with
    | nil => rw [hnum] at hm; cases hm
    | cons n ns =>
      rw [get_next_file_number_eq files date n ns hnum]
      rw [hnum] at hm
      have : m ≤ ns.foldl max n := by
        rcases List.mem_cons.mp hm with rfl | hmem
        · exact le_foldl_max ns m
        · exact mem_le_foldl_max ns n m hmem
      omega
  · cases hnum : (files.filter (fun f => globMatch date f)).filterMap
        (fun f => parsedNumber? f) with
    | nil => exact absurd hnum h
    | cons n ns =>
      rw [get_next_file_number_eq files date n ns hnum]
      have : ns.foldl max n + 1 - 1 = ns.foldl max n := by omega
      rw [this]
      rcases foldl_max_mem ns n with heq | hmem
      · rw [heq]; exact List.mem_cons_self n ns
      · exact List.mem_cons_of_mem n hmem

/-- Witness for C4: on the gapped directory 1, 2, 3, 5, the parsed number
5 is bounded by the result minus one, and the result minus one (5) is
itself a parsed number. -/
theorem C4_next_sequence_witness :
    (5 : Int) ≤ get_next_file_number
        ["banana_1sep_001.png", "banana_1sep_002.png", "banana_1sep_003.png",
          "banana_1sep_005.png"] "1sep" - 1 ∧
    get_next_file_number
        ["banana_1sep_001.png", "banana_1sep_002.png", "banana_1sep_003.png",
          "banana_1sep_005.png"] "1sep" - 1 ∈
      (["banana_1sep_001.png", "banana_1sep_002.png", "banana_1sep_003.png",
          "banana_1sep_005.png"].filter
        (fun f => globMatch "1sep" f)).filterMap (fun f => parsedNumber? f) := by
  have h := C4_next_sequence
    ["banana_1sep_001.png", "banana_1sep_002.png", "banana_1sep_003.png",
      "banana_1sep_005.png"] "1sep"
  exact ⟨h.2.2.1 5 (by decide), h.2.2.2.1 (by decide)⟩

/-- `digitChar` and `digitVal?` are inverse on values below 10. -/
theorem digitVal?_digitChar : ∀ d < 10, digitVal? (digitChar d) = some d := by
  intro d hd
  interval_cases d <;> decide

set_option maxHeartbeats 1600000 in
/-- Every character produced by `natDigitsAux` is a decimal digit
character. -/
theorem natDigitsAux_mem_digits :
    ∀ (fuel n : Nat), ∀ c ∈ natDigitsAux fuel n,
      c ∈ ['0', '1', '2', '3', '4', '5', '6', '7', '8', '9'] := by
  intro fuel
  induction fuel with
  | zero => intro n c hc; cases hc
  | succ fuel ih =>
    intro n c hc
    rw [natDigitsAux] at hc
    by_cases hn : n < 10
    · rw [if_pos hn] at hc
      rcases List.mem_singleton.mp hc with rfl
      unfold digitChar
      split_ifs <;> simp
    · rw [if_neg hn] at hc
      rcases List.mem_append.mp hc with h1 | h2
      · exact ih (n / 10) c h1
      · rcases List.mem_singleton.mp h2 with rfl
        unfold digitChar
        split_ifs <;> simp

/-- The parser distributes over concatenation: it threads its accumulator
through the first block and continues on the second. -/
theorem parseNatAux_append (ds es : List Char) :
    ∀ acc, parseNatAux acc (ds ++ es) =
      (parseNatAux acc ds).bind (fun m => parseNatAux m es) := by
  induction ds with
  | nil => intro acc; rfl
  | cons c cs ih =>
    intro acc
    rw [List.cons_append]
    simp only [parseNatAux]
    cases digitVal? c with
    | some d => exact ih (10 * acc + d)
    | none => rfl

/-- Parsing the digit string of `n` starting from accumulator `acc` yields
`acc` shifted by the number of digits, plus `n`. -/
theorem parseNatAux_natDigitsAux :
    ∀ (fuel n : Nat), n ≤ fuel → ∀ acc,
      parseNatAux acc (natDigitsAux (fuel + 1) n) =
        some (acc * 10 ^ (natDigitsAux (fuel + 1) n).length + n) := by
  intro fuel
  induction fuel with
  | zero =>
    intro n hn acc
    interval_cases n
    rw [natDigitsAux, if_pos (by omega)]
    simp only [parseNatAux, digitVal?_digitChar 0 (by omega)]
    simp
    ring
  | succ fuel ih =>
    intro n hn acc
    by_cases h10 : n < 10
    · rw [natDigitsAux, if_pos h10]
      simp only [parseNatAux, digitVal?_digitChar n h10]
      simp
      ring
    · have hdiv : n / 10 ≤ fuel := by
        have : n / 10 < n := Nat.div_lt_self (by omega) (by omega)
        omega
      rw [natDigitsAux, if_neg h10, parseNatAux_append]
      rw [ih (n / 10) hdiv acc]
      rw [Option.some_bind]
      simp only [parseNatAux, digitVal?_digitChar (n % 10) (by omega),
        List.length_append, List.length_singleton]
      congr 1
      have hmod : 10 * (n / 10) + n % 10 = n := by
        have := Nat.div_add_mod n 10
        omega
      ring_nf
      omega

/-- The digit string of `n` is non-empty. -/
theorem natDigits_ne_nil (n : Nat) : natDigits n ≠ [] := by
  rw [natDigits, natDigitsAux]
  by_cases h10 : n < 10
  · rw [if_pos h10]; simp
  · rw [if_neg h10]; simp

/-- Parsing the digit string of `n` from a zero accumulator recovers `n`. -/
theorem parseNatAux_natDigits (n : Nat) : parseNatAux 0 (natDigits n) = some n := by
  rw [natDigits, parseNatAux_natDigitsAux n n (le_refl n) 0]
  simp

/-- Leading zeros do not change the parsed value of a zero accumulator. -/
theorem parseNatAux_replicate_zero (k : Nat) (ds : List Char) :
    parseNatAux 0 (List.replicate k '0' ++ ds) = parseNatAux 0 ds := by
  induction k with
  | zero => rfl
  | succ k ih =>
    rw [List.replicate_succ, List.cons_append, parseNatAux]
    have : digitVal? '0' = some 0 := by decide
    rw [this]
    simpa using ih

/-- For a non-negative number, the zero-padded formatted digit string
parses back (by the Python `int` model) to the number itself. -/
theorem pyInt?_pad3 (n : Int) (h : 0 ≤ n) : pyInt? (pad3 n) = some n := by
  rw [pad3, if_neg (by omega)]
  rcases hd : natDigits n.toNat with _ | ⟨c, cs⟩
  · exact absurd hd (natDigits_ne_nil n.toNat)
  have hcdig : c ∈ ['0', '1', '2', '3', '4', '5', '6', '7', '8', '9'] := by
    have := natDigitsAux_mem_digits (n.toNat + 1) n.toNat c
    rw [natDigits] at hd
    exact this (by rw [hd]; exact List.mem_cons_self c cs)
  have hparse : parseNatAux 0 (zfill 3 (c :: cs)) = some n.toNat := by
    rw [zfill, parseNatAux_replicate_zero, ← hd, parseNatAux_natDigits]
  rcases hz : zfill 3 (c :: cs) with _ | ⟨z, zs⟩
  · exfalso
    rw [zfill] at hz
    rcases List.append_eq_nil.mp hz with ⟨-, h2⟩
    cases h2
  · have hzdig : z ∈ ['0', '1', '2', '3', '4', '5', '6', '7', '8', '9'] := by
      rw [zfill] at hz
      rcases k : (3 - (c :: cs).length) with _ | k'
      · rw [k] at hz
        simp only [List.replicate_zero, List.nil_append] at hz
        rcases hz with ⟨rfl, rfl⟩
        exact hcdig
      · rw [k] at hz
        rw [List.replicate_succ, List.cons_append] at hz
        rcases hz with ⟨rfl, -⟩
        decide
    have hzm : z ≠ '-' := by fin_cases hzdig <;> decide
    have hzp : z ≠ '+' := by fin_cases hzdig <;> decide
    rw [hz] at hparse
    simp only [pyInt?]
    rw [if_neg hzm, if_neg hzp, hparse]
    simp [Int.toNat_of_nonneg h]

/-- Splitting never yields an empty group list. -/
theorem splitChar_ne_nil (sep : Char) (cs : List Char) : splitChar sep cs ≠ [] := by
  induction cs with
  | nil => simp [splitChar]
  | cons c cs ih =>
    rw [splitChar]
    cases hsp : splitChar sep cs with
    | nil => simp
    | cons g gs =>
      by_cases hc : c = sep
      · simp [hc]
      · simp [hc]

/-- A separator-free string splits into the single group holding it. -/
theorem splitChar_of_not_mem (sep : Char) (cs : List Char) (h : sep ∉ cs) :
    splitChar sep cs = [cs] := by
  induction cs with
  | nil => rfl
  | cons c cs ih =>
    have hc : ¬c = sep := fun hc => h (by rw [hc]; exact List.mem_cons_self sep cs)
    rw [splitChar, ih (fun hm => h (List.mem_cons_of_mem c hm))]
    simp [hc]

/-- Splitting at the first separator occurrence peels off the leading
separator-free block. -/
theorem splitChar_append_cons (sep : Char) (xs ys : List Char) (h : sep ∉ xs) :
    splitChar sep (xs ++ sep :: ys) = xs :: splitChar sep ys := by
  induction xs with
  | nil =>
    rw [List.nil_append, splitChar]
    cases hsp : splitChar sep ys with
    | nil => exact absurd hsp (splitChar_ne_nil sep ys)
    | cons g gs => simp
  | cons x xs ih =>
    have hx : ¬x = sep := fun hc => h (by rw [hc]; exact List.mem_cons_self sep xs)
    rw [List.cons_append, splitChar,
      ih (fun hm => h (List.mem_cons_of_mem x hm))]
    simp [hx]

/-- For a non-negative number, every character of the padded sequence
segment is a decimal digit. -/
theorem pad3_mem_digits (n : Int) (h : 0 ≤ n) :
    ∀ c ∈ pad3 n, c ∈ ['0', '1', '2', '3', '4', '5', '6', '7', '8', '9'] := by
  intro c hc
  rw [pad3, if_neg (by omega), zfill] at hc
  rcases List.mem_append.mp hc with h1 | h2
  · rcases List.eq_of_mem_replicate h1 with rfl
    decide
  · rw [natDigits] at h2
    exact natDigitsAux_mem_digits (n.toNat + 1) n.toNat c h2

/-- The character list of a generated filename, in fully right-nested
form. -/
theorem bananaFileName_data (date : String) (n : Int) :
    (bananaFileName date n).data =
      'b' :: 'a' :: 'n' :: 'a' :: 'n' :: 'a' :: '_' ::
        (date.data ++ '_' :: (pad3 n ++ '.' :: 'p' :: 'n' :: 'g' :: [])) := by
  have hb : "banana_".data = ['b', 'a', 'n', 'a', 'n', 'a', '_'] := rfl
  have hu : "_".data = ['_'] := rfl
  have hp : ".png".data = ['.', 'p', 'n', 'g'] := rfl
  have hmk : (String.mk (pad3 n)).data = pad3 n := rfl
  simp [bananaFileName, String.data_append, hb, hu, hp, hmk]

/-- Parsing a generated filename recovers its sequence number, provided
the date bucket holds no underscore and no dot and the number is
non-negative. -/
theorem parsedNumber?_bananaFileName (date : String) (n : Int)
    (hu : '_' ∉ date.data) (hd : '.' ∉ date.data) (h : 0 ≤ n) :
    parsedNumber? (bananaFileName date n) = some n := by
  have hpadd : '.' ∉ pad3 n := fun hm => by
    have := pad3_mem_digits n h '.' hm
    simp at this
  have hpadu : '_' ∉ pad3 n := fun hm => by
    have := pad3_mem_digits n h '_' hm
    simp at this
  have hsplitdot : splitChar '.' (bananaFileName date n).data =
      [('b' :: 'a' :: 'n' :: 'a' :: 'n' :: 'a' :: '_' ::
        (date.data ++ '_' :: pad3 n)), ['p', 'n', 'g']] := by
    rw [bananaFileName_data]
    have hshape :
        'b' :: 'a' :: 'n' :: 'a' :: 'n' :: 'a' :: '_' ::
          (date.data ++ '_' :: (pad3 n ++ '.' :: 'p' :: 'n' :: 'g' :: [])) =
        ('b' :: 'a' :: 'n' :: 'a' :: 'n' :: 'a' :: '_' ::
          (date.data ++ '_' :: pad3 n)) ++ '.' :: ['p', 'n', 'g'] := by
      simp
    rw [hshape, splitChar_append_cons, splitChar_of_not_mem]
    · decide
    · intro hm
      simp only [List.mem_cons] at hm
      rcases hm with h1 | h1 | h1 | h1 | h1 | h1 | h1 | h1
      all_goals first
        | exact absurd h1 (by decide)
        | (rcases List.mem_append.mp h1 with h2 | h2
           · exact hd h2
           · rcases List.mem_cons.mp h2 with h3 | h3
             · exact absurd h3 (by decide)
             · exact hpadd h3)
  have hstem : stemChars (bananaFileName date n).data =
      'b' :: 'a' :: 'n' :: 'a' :: 'n' :: 'a' :: '_' ::
        (date.data ++ '_' :: pad3 n) := by
    rw [stemChars]
    rw [hsplitdot]
    rw [if_pos (by refine ⟨by simp, by simp, ?_⟩; simp)]
    simp [List.intercalate]
  have hsplitu : splitChar '_'
      ('b' :: 'a' :: 'n' :: 'a' :: 'n' :: 'a' :: '_' ::
        (date.data ++ '_' :: pad3 n)) =
      [['b', 'a', 'n', 'a', 'n', 'a'], date.data, pad3 n] := by
    have hshape :
        'b' :: 'a' :: 'n' :: 'a' :: 'n' :: 'a' :: '_' ::
          (date.data ++ '_' :: pad3 n) =
        ['b', 'a', 'n', 'a', 'n', 'a'] ++ '_' :: (date.data ++ '_' :: pad3 n) := by
      simp
    rw [hshape, splitChar_append_cons _ _ _ (by decide),
      splitChar_append_cons _ _ _ hu, splitChar_of_not_mem _ _ hpadu]
  rw [parsedNumber?, hstem, hsplitu]
  rw [if_pos (by simp)]
  exact pyInt?_pad3 n h

/-- A list is a Boolean prefix of itself followed by anything. -/
theorem isPrefixOf_append_self (l t : List Char) :
    List.isPrefixOf l (l ++ t) = true := by
  induction l with
  | nil => simp [List.isPrefixOf]
  | cons c cs ih => simp [List.isPrefixOf, ih]

/-- A generated filename matches the glob pattern for its own date
bucket. -/
theorem globMatch_bananaFileName (date : String) (n : Int) :
    globMatch date (bananaFileName date n) = true := by
  have hdata : (bananaFileName date n).data =
      ("banana_" ++ date ++ "_").data ++ (pad3 n ++ ['.', 'p', 'n', 'g']) := by
    simp [bananaFileName, String.data_append]
  rw [globMatch]
  simp only [Bool.and_eq_true, hdata]
  refine ⟨⟨?_, ?_⟩, ?_⟩
  · exact isPrefixOf_append_self _ _
  · refine List.isSuffixOf_iff_suffix.mpr ?_
    have : ("banana_" ++ date ++ "_").data ++ (pad3 n ++ ['.', 'p', 'n', 'g']) =
        (("banana_" ++ date ++ "_").data ++ pad3 n) ++ ['.', 'p', 'n', 'g'] := by
      simp
    rw [this]
    exact List.suffix_append _ _
  · simp only [decide_eq_true_eq, List.length_append, List.length_cons,
      List.length_nil]
    omega

/-- For a well-formed date bucket, distinct non-negative sequence numbers
give distinct filenames. -/
theorem bananaFileName_inj (date : String) (hu : '_' ∉ date.data)
    (hd : '.' ∉ date.data) (n m : Int) (hn : 0 ≤ n) (hm : 0 ≤ m)
    (heq : bananaFileName date n = bananaFileName date m) : n = m := by
  have h1 := parsedNumber?_bananaFileName date n hu hd hn
  have h2 := parsedNumber?_bananaFileName date m hu hd hm
  rw [heq, h2] at h1
  exact Option.some.inj h1.symm

/-- No candidate name at or above the freshly computed next sequence
number is present in the directory snapshot the number was computed
from. -/
theorem candidate_not_mem (dir : List String) (date : String) (i : Nat)
    (hu : '_' ∉ date.data) (hd : '.' ∉ date.data)
    (hpos : 1 ≤ get_next_file_number dir date) :
    bananaFileName date (get_next_file_number dir date + i) ∉ dir := by
  intro hmem
  have hg := globMatch_bananaFileName date (get_next_file_number dir date + i)
  have hmemf : bananaFileName date (get_next_file_number dir date + i) ∈
      dir.filter (fun f => globMatch date f) := List.mem_filter.mpr ⟨hmem, hg⟩
  have hparse := parsedNumber?_bananaFileName date
    (get_next_file_number dir date + i) hu hd (by omega)
  have hmemn : (get_next_file_number dir date + i : Int) ∈
      (dir.filter (fun f => globMatch date f)).filterMap
        (fun f => parsedNumber? f) :=
    List.mem_filterMap.mpr ⟨_, hmemf, hparse⟩
  cases hnum : (dir.filter (fun f => globMatch date f)).filterMap
      (fun f => parsedNumber? f) with
  | nil => rw [hnum] at hmemn; cases hmemn
  | cons m ms =>
    have heq := get_next_file_number_eq dir date m ms hnum
    rw [hnum] at hmemn
    have hle : get_next_file_number dir date + i ≤ ms.foldl max m := by
      rcases List.mem_cons.mp hmemn with he | hmem2
      · rw [he]; exact le_foldl_max ms m
      · exact mem_le_foldl_max ms m _ hmem2
    rw [heq] at hle
    omega

/-- With a free candidate the collision loop stops immediately. -/
theorem allocLoop_not_mem (fs : List String) (date : String) (n : Int)
    (fuel : Nat) (h : bananaFileName date n ∉ fs) :
    allocLoop fs date n (fuel + 1) = n := by
  rw [allocLoop, if_neg h]

/-- When every one of the allowed increments lands on an occupied name,
the collision loop exhausts its cap and returns the final candidate —
whether or not that final name is itself occupied. -/
theorem allocLoop_all_occupied :
    ∀ (fuel : Nat) (fs : List String) (date : String) (n : Int),
      (∀ c : Nat, c < fuel → bananaFileName date (n + c) ∈ fs) →
      allocLoop fs date n fuel = n + fuel := by
  intro fuel
  induction fuel with
  | zero => intro fs date n _; simp [allocLoop]
  | succ fuel ih =>
    intro fs date n h
    have h0 : bananaFileName date n ∈ fs := by
      have := h 0 (by omega)
      simpa using this
    rw [allocLoop, if_pos h0]
    have hrec := ih fs date (n + 1) (fun c hc => by
      have := h (c + 1) (by omega)
      have hcast : n + ((c : Int) + 1) = n + 1 + c := by ring
      rw [show ((c + 1 : Nat) : Int) = (c : Int) + 1 by push_cast; ring,
        hcast] at this
      exact this)
    rw [hrec]
    push_cast
    ring

/-- The save loop writes exactly one file per remaining valid result. -/
theorem autoSaveLoop_length (date : String) (start : Int) :
    ∀ (rest : List (List Nat)) (fs : List String) (i : Nat),
      (autoSaveLoop date start fs rest i).length = rest.length := by
  intro rest
  induction rest with
  | nil => intro fs i; rfl
  | cons b rest ih =>
    intro fs i
    rw [autoSaveLoop]
    simp [ih]

/-- When no candidate name in the batch's range is occupied, the save loop
assigns the consecutive numbers `start + i` in order. -/
theorem autoSaveLoop_free (date : String) (start : Int) :
    ∀ (rest : List (List Nat)) (i : Nat) (fs : List String),
      (∀ j : Nat, i ≤ j → j < i + rest.length →
        bananaFileName date (start + j) ∉ fs) →
      (∀ j k : Nat,
        bananaFileName date (start + j) = bananaFileName date (start + k) →
        j = k) →
      autoSaveLoop date start fs rest i =
        (List.range' i rest.length).map
          (fun j : Nat => bananaFileName date (start + (j : Int))) := by
  intro rest
  induction rest with
  | nil => intro i fs _ _; rfl
  | cons b rest ih =>
    intro i fs hnot hinj
    have hfree : bananaFileName date (start + i) ∉ fs :=
      hnot i (le_refl i) (by simp)
    rw [autoSaveLoop]
    rw [show allocLoop fs date (start + i) 1000 = start + i from
      allocLoop_not_mem fs date (start + i) 999 hfree]
    have hrec := ih (i + 1) (bananaFileName date (start + i) :: fs)
      (fun j hj hjlt => by
        intro hmem
        rcases List.mem_cons.mp hmem with he | hmemfs
        · have := hinj j i he
          omega
        · exact hnot j (by omega) (by simp at hjlt ⊢; omega) hmemfs)
      hinj
    rw [hrec]
    simp only [List.length_cons, List.range'_succ, List.map_cons]

/-- On a quiescent filesystem (no names appearing between the numbering
snapshot and the existence checks), `auto_save_results` writes exactly the
valid results at the consecutive numbers `start + i`. -/
theorem auto_save_results_quiescent (dir : List String) (date : String)
    (results : List (List Nat)) (hu : '_' ∉ date.data) (hd : '.' ∉ date.data)
    (hpos : 1 ≤ get_next_file_number dir date) :
    auto_save_results dir [] date results =
      (List.range (results.filter (fun b => 100 < b.length)).length).map
        (fun i : Nat =>
          bananaFileName date (get_next_file_number dir date + (i : Int))) := by
  rw [auto_save_results]
  by_cases hres : results.isEmpty
  · rw [if_pos hres]
    rw [List.isEmpty_iff.mp hres]
    rfl
  · rw [if_neg hres]
    by_cases hval : (results.filter (fun b => 100 < b.length)).isEmpty
    · rw [if_pos hval]
      rw [List.isEmpty_iff.mp hval]
      rfl
    · rw [if_neg hval]
      rw [List.append_nil]
      rw [autoSaveLoop_free date (get_next_file_number dir date)
        (results.filter (fun b => 100 < b.length)) 0 dir
        (fun j _ _ => candidate_not_mem dir date j hu hd hpos)
        (fun j k he => by
          have := bananaFileName_inj date hu hd
            (get_next_file_number dir date + j) (get_next_file_number dir date + k)
            (by omega) (by omega) he
          omega)]
      rw [List.range_eq_range']

/-- C10: the auto-save step writes nothing for an empty input list, drops
every blob of at most 100 bytes before numbering, leaves the filesystem
unchanged when no blob survives, and assigns the consecutive sequence
numbers `start + i` to the surviving blobs in their original order. -/
theorem C10_auto_save_filtering (dir : List String) (date : String)
    (results : List (List Nat)) (hu : '_' ∉ date.data) (hd : '.' ∉ date.data)
    (hpos : 1 ≤ get_next_file_number dir date) :
    (results = [] → auto_save_results dir [] date results = []) ∧
    (results.filter (fun b => 100 < b.length) = [] →
      auto_save_results dir [] date results = []) ∧
    auto_save_results dir [] date results =
      (List.range (results.filter (fun b => 100 < b.length)).length).map
        (fun i : Nat =>
          bananaFileName date (get_next_file_number dir date + (i : Int))) := by
  have hq := auto_save_results_quiescent dir date results hu hd hpos
  refine ⟨fun h => ?_, fun h => ?_, hq⟩
  · subst h
    rfl
  · rw [hq, h]
    rfl

set_option maxRecDepth 8000 in
/-- Witness for C10: of three blobs (101, 5 and 120 bytes) only the first
and third survive and receive numbers 1 and 2; a lone 5-byte blob writes
nothing. -/
theorem C10_auto_save_filtering_witness :
    auto_save_results [] [] "1sep"
        [List.replicate 101 0, List.replicate 5 0, List.replicate 120 7] =
      ["banana_1sep_001.png", "banana_1sep_002.png"] ∧
    auto_save_results [] [] "1sep" [List.replicate 5 0] = [] := by
  constructor
  · have h := C10_auto_save_filtering [] "1sep"
      [List.replicate 101 0, List.replicate 5 0, List.replicate 120 7]
      (by decide) (by decide) (by decide)
    rw [h.2.2]
    decide
  · have h := C10_auto_save_filtering [] "1sep" [List.replicate 5 0]
      (by decide) (by decide) (by decide)
    exact h.2.1 (by decide)

/-- C5 (amended): each valid result `i` is allocated `start + i` from a
single `get_next_file_number` snapshot; every valid artifact yields
exactly one written file regardless of collisions, so the other artifacts
of the batch are unaffected; the per-artifact existence loop retries at
most 1000 increments, and when all 1000 attempts find occupied names the
artifact is still written to the final candidate `start + i + 1000` even
if that name is occupied — a silent overwrite, with no error signalled. -/
theorem C5_sequential_allocation (dir ext fs : List String) (date : String)
    (results : List (List Nat)) (n : Int)
    (hu : '_' ∉ date.data) (hd : '.' ∉ date.data)
    (hpos : 1 ≤ get_next_file_number dir date) :
    auto_save_results dir [] date results =
      (List.range (results.filter (fun b => 100 < b.length)).length).map
        (fun i : Nat =>
          bananaFileName date (get_next_file_number dir date + (i : Int))) ∧
    (auto_save_results dir ext date results).length =
      (results.filter (fun b => 100 < b.length)).length ∧
    ((∀ c : Nat, c < 1000 → bananaFileName date (n + c) ∈ fs) →
      allocLoop fs date n 1000 = n + 1000) := by
  refine ⟨auto_save_results_quiescent dir date results hu hd hpos, ?_, fun h => ?_⟩
  · rw [auto_save_results]
    by_cases hres : results.isEmpty
    · rw [if_pos hres, List.isEmpty_iff.mp hres]
      rfl
    · rw [if_neg hres]
      by_cases hval : (results.filter (fun b => 100 < b.length)).isEmpty
      · rw [if_pos hval, List.isEmpty_iff.mp hval]
        rfl
      · rw [if_neg hval]
        exact autoSaveLoop_length date (get_next_file_number dir date)
          (results.filter (fun b => 100 < b.length)) (dir ++ ext) 0
  · have := allocLoop_all_occupied 1000 fs date n h
    simpa using this

set_option maxRecDepth 8000 in
/-- Witness for C5: with the directory holding number 1, a single valid
blob is saved at number 2; and a fully occupied candidate range exhausts
the loop at 1002. -/
theorem C5_sequential_allocation_witness :
    allocLoop ((List.range 1001).map
        (fun j : Nat => bananaFileName "1sep" (2 + (j : Int)))) "1sep" 2 1000 =
      1002 ∧
    auto_save_results ["banana_1sep_001.png"] [] "1sep" [List.replicate 101 0] =
      ["banana_1sep_002.png"] := by
  have h := C5_sequential_allocation ["banana_1sep_001.png"] []
    ((List.range 1001).map (fun j : Nat => bananaFileName "1sep" (2 + (j : Int))))
    "1sep" [List.replicate 101 0] 2 (by decide) (by decide) (by decide)
  constructor
  · have h3 := h.2.2 (fun c hc =>
      List.mem_map.mpr ⟨c, List.mem_range.mpr (by omega), rfl⟩)
    rw [h3]
    norm_num
  · rw [h.1]
    decide

set_option maxRecDepth 8000 in
/-- Counterexample to C5 as stated: when all 1000 retry candidates are
occupied (the names appeared after the numbering snapshot), the artifact
is not dropped with a `NamingExhausted` signal — it is written to the
final candidate 1002, a name that is itself already occupied (a silent
overwrite). -/
theorem C5_sequential_allocation_counterexample :
    auto_save_results ["banana_1sep_001.png"]
        ((List.range 1001).map (fun j : Nat => bananaFileName "1sep" (2 + (j : Int))))
        "1sep" [List.replicate 101 0] =
      [bananaFileName "1sep" 1002] ∧
    bananaFileName "1sep" 1002 ∈
      (List.range 1001).map (fun j : Nat => bananaFileName "1sep" (2 + (j : Int))) := by
  constructor
  · rw [auto_save_results, if_neg (by decide)]
    have hv : ([List.replicate 101 0] : List (List Nat)).filter
        (fun b => 100 < b.length) = [List.replicate 101 0] := by decide
    rw [hv, if_neg (by decide)]
    have hstart : get_next_file_number ["banana_1sep_001.png"] "1sep" = 2 := by
      decide
    rw [hstart, autoSaveLoop]
    have hfs : ∀ c : Nat, c < 1000 → bananaFileName "1sep" ((2 : Int) + c) ∈
        ["banana_1sep_001.png"] ++ (List.range 1001).map
          (fun j : Nat => bananaFileName "1sep" (2 + (j : Int))) := by
      intro c hc
      exact List.mem_append_right _
        (List.mem_map.mpr ⟨c, List.mem_range.mpr (by omega), rfl⟩)
    have hzero : ((2 : Int) + ((0 : Nat) : Int)) = 2 := by norm_num
    rw [hzero]
    rw [allocLoop_all_occupied 1000 _ "1sep" 2 hfs]
    norm_num
    rfl
  · refine List.mem_map.mpr ⟨1000, List.mem_range.mpr (by omega), ?_⟩
    norm_num

end Banana
